import Mathlib

/-!
# Verification of the `whatdoing` document model, project aggregation and journal store

Shallow embedding of `src/whatdoing/parser.py`, `src/whatdoing/models.py`,
`src/whatdoing/screens/project.py` (`_write_yaml`) and
`src/whatdoing/services/journal.py` (`recent_entries`), together with
theorems settling the specification claims about them.

Python strings are modelled as Lean `String`s; the Python `str` methods used
by the code (`split`, `strip`, `startswith`, `lower`, `in`, slicing) are
modelled by executable character-list functions below, since the code only
ever manipulates whole lines and code points.  Python dicts (insertion-ordered,
assignment keeps the first-insertion position and overwrites the value) are
modelled as association lists with a position-preserving update.
-/

/-! ## String helpers (models of the Python `str` methods used by the code) -/

/-- Whitespace test used by Python's `str.strip()` (the code only ever meets
ASCII whitespace). -/
def isWS (c : Char) : Bool :=
  c = ' ' || c = '\t' || c = '\n' || c = '\r' || c = '\x0b' || c = '\x0c'

/-- Model of Python `str.strip()` on a character list. -/
def stripL (l : List Char) : List Char :=
  ((l.dropWhile isWS).reverse.dropWhile isWS).reverse

/-- Model of Python `str.strip()`. -/
def strip (s : String) : String := String.mk (stripL s.data)

/-- Split a character list at every occurrence of `c`
(model of Python `str.split(c)` for a one-character separator). -/
def splitCh (c : Char) : List Char → List (List Char)
  | [] => [[]]
  | ch :: rest =>
    let r := splitCh c rest
    if ch = c then [] :: r
    else
      match r with
      | h :: t => (ch :: h) :: t
      | [] => [[ch]]

/-- Model of Python `text.split("\n")`. -/
def splitLines (s : String) : List String := (splitCh '\n' s.data).map String.mk

/-- Boolean list-prefix test. -/
def isPrefixL : List Char → List Char → Bool
  | [], _ => true
  | _ :: _, [] => false
  | a :: as, b :: bs => a = b && isPrefixL as bs

/-- Model of Python `s.startswith(pre)`. -/
def startsW (s pre : String) : Bool := isPrefixL pre.data s.data

/-- ASCII lower-casing of one character (model of Python `str.lower()` on the
ASCII inputs the code uses). -/
def lowerChar (c : Char) : Char :=
  if 65 ≤ c.toNat ∧ c.toNat ≤ 90 then Char.ofNat (c.toNat + 32) else c

/-- Model of Python `s.lower()`. -/
def lowerS (s : String) : String := String.mk (s.data.map lowerChar)

/-- Model of Python `c in s` for a one-character `c`. -/
def containsC (s : String) (c : Char) : Bool := s.data.contains c

/-- Model of Python slicing `s[n:]`. -/
def dropS (s : String) (n : Nat) : String := String.mk (s.data.drop n)

/-- Model of Python `s.split(c, 1)` for a one-character separator: the part
before the first occurrence of `c`, and — when `c` occurs — the part after it. -/
def splitOnce (c : Char) : List Char → List Char × Option (List Char)
  | [] => ([], none)
  | ch :: rest =>
    if ch = c then ([], some rest)
    else
      let r := splitOnce c rest
      (ch :: r.1, r.2)

/-- Code-point lexicographic order on character lists
(model of Python's `<=` on strings, used by `sorted`). -/
def charListLe : List Char → List Char → Bool
  | [], _ => true
  | _ :: _, [] => false
  | a :: as, b :: bs => a.toNat < b.toNat || (a.toNat = b.toNat && charListLe as bs)

/-- Model of Python `s <= t` on strings. -/
def strLe (s t : String) : Bool := charListLe s.data t.data

/-! ## The document model (`parser.py`) -/

/-- A value appearing in a parsed YAML frontmatter mapping: the code only ever
distinguishes `null`, scalars (read back as strings) and flat lists. -/
inductive YamlValue where
  | nullV : YamlValue
  | str : String → YamlValue
  | list : List String → YamlValue
deriving DecidableEq

/-- The result of `yaml.safe_load` on the frontmatter text, abstracted:
`none` models both a raised `yaml.YAMLError` and a successful parse whose
result is not a mapping — `parse_document` treats the two identically
(the frontmatter stays empty). -/
def YamlOracle := String → Option (List (String × YamlValue))

/-- `ParsedDocument` from `parser.py`: frontmatter mapping, body text,
`## `-section mapping and title. -/
structure ParsedDocument where
  frontmatter : List (String × YamlValue) := []
  body : String := ""
  sections : List (String × String) := []
  title : String := ""
deriving DecidableEq

/-- Python-dict assignment `d[k] = v` on an insertion-ordered mapping:
an existing key keeps its position and gets the new value, a new key is
appended at the end. -/
def dictSet (d : List (String × String)) (k v : String) : List (String × String) :=
  match d with
  | [] => [(k, v)]
  | (k', v') :: rest => if k' = k then (k, v) :: rest else (k', v') :: dictSet rest k v

/-- Title extraction from `_extract_metadata`: the first line starting with
`# ` (and not with `## `), stripped of the marker. -/
def extract_title : List String → String
  | [] => ""
  | line :: rest =>
    if startsW line "# " && !startsW line "## " then strip (dropS line 2)
    else extract_title rest

/-- The `## `-section loop of `_extract_metadata`: `h` is `current_heading`,
`content` is `current_content`, `secs` the sections dict built so far.
An empty `current_heading` is falsy in Python, so lines before the first
heading (or after a heading whose text strips to empty) are dropped and no
flush happens for it. -/
def extract_sections : List String → String → List String → List (String × String) →
    List (String × String)
  | [], h, content, secs =>
    if h ≠ "" then dictSet secs h (strip (String.intercalate "\n" content)) else secs
  | line :: rest, h, content, secs =>
    if startsW line "## " then
      let secs' := if h ≠ "" then dictSet secs h (strip (String.intercalate "\n" content))
                   else secs
      extract_sections rest (strip (dropS line 3)) [] secs'
    else if h ≠ "" then extract_sections rest h (content ++ [line]) secs
    else extract_sections rest h content secs

/-- `_extract_metadata` from `parser.py`: fills `title` and `sections`
from the body. -/
def _extract_metadata (doc : ParsedDocument) : ParsedDocument :=
  let lines := splitLines doc.body
  { doc with
    title := extract_title lines
    sections := extract_sections lines "" [] [] }

/-- The closing-delimiter scan of `parse_document` (lines `1..`): splits the
post-opener lines at the first line whose strip is `---`, returning the
frontmatter lines and the body lines, or `none` when no closing delimiter
exists. -/
def findCloseSplit : List String → Option (List String × List String)
  | [] => none
  | l :: ls =>
    if strip l = "---" then some ([], ls)
    else
      match findCloseSplit ls with
      | some (a, b) => some (l :: a, b)
      | none => none

/-- `parse_document` from `parser.py`, over the file's text (the `path.exists`
/ read-failure guards are outside the text-level model) and an abstract
`yaml.safe_load`.  Total by construction: no input raises. -/
def parse_document (yamlLoad : YamlOracle) (text : String) : ParsedDocument :=
  match splitLines text with
  | [] => _extract_metadata { body := text }
  | first :: rest =>
    if strip first ≠ "---" then _extract_metadata { body := text }
    else
      match findCloseSplit rest with
      | none => _extract_metadata { body := text }
      | some (fmLines, bodyLines) =>
        let fm := (yamlLoad (String.intercalate "\n" fmLines)).getD []
        _extract_metadata
          { frontmatter := fm, body := String.intercalate "\n" bodyLines }

/-- `ParsedDocument.get` from `parser.py`: string view of a frontmatter value
with a default for missing / null / empty values; a list value yields its
first element (un-stripped, as in the code). -/
def ParsedDocument.get (doc : ParsedDocument) (key defaultV : String) : String :=
  match doc.frontmatter.lookup key with
  | none => if strip "" = "" then defaultV else ""
  | some .nullV => defaultV
  | some (.str s) =>
    if s = "null" then defaultV
    else if strip s = "" then defaultV else strip s
  | some (.list xs) =>
    match xs with
    | [] => defaultV
    | x :: _ => x

/-- `merge_documents` from `parser.py`: fold over the secondary's sections,
appending each one whose heading is not a primary heading and whose content
does not strip to empty. -/
def merge_documents (primary secondary : ParsedDocument) : String :=
  let primaryHeadings := primary.sections.map Prod.fst
  secondary.sections.foldl
    (fun merged hc =>
      if ¬ primaryHeadings.contains hc.1 ∧ strip hc.2 ≠ "" then
        merged ++ "\n\n## " ++ hc.1 ++ "\n" ++ hc.2
      else merged)
    primary.body





/-! ## Targeted frontmatter rewrite (`ProjectScreen._write_yaml`) -/

/-- Result of the line scan in `_write_yaml`: the index of the line starting
with `key:` inside the frontmatter, or the index of the closing `---`, or
neither. -/
inductive ScanRes where
  | keyAt : Nat → ScanRes
  | endAt : Nat → ScanRes
  | noHit : ScanRes
deriving DecidableEq

/-- The `for i, line in enumerate(lines)` loop of `_write_yaml`: the first
`---`-stripped line turns `in_frontmatter` on and is skipped; the second ends
the scan; in between, the first line starting with `key:` wins. -/
def scanFm (key : String) : List String → Nat → Bool → ScanRes
  | [], _, _ => .noHit
  | l :: ls, i, inFm =>
    if strip l = "---" then
      if !inFm then scanFm key ls (i + 1) true else .endAt i
    else if inFm && startsW l (key ++ ":") then .keyAt i
    else scanFm key ls (i + 1) inFm

/-- The formatted replacement line of `_write_yaml`: the value is quoted when
it contains a space. -/
def fmtValue (key value : String) : String :=
  if containsC value ' ' then key ++ ": \"" ++ value ++ "\"" else key ++ ": " ++ value

/-- `_write_yaml` from `screens/project.py`, on the file's lines: replaces the
`key:` line (dropping any immediately following `- ` list-item lines), or
inserts the formatted line before the closing `---` when the key is absent. -/
def write_yaml (lines : List String) (key value : String) : List String :=
  match scanFm key lines 0 false with
  | .keyAt i =>
    lines.take i ++ fmtValue key value ::
      (lines.drop (i + 1)).dropWhile (fun l => startsW l "- ")
  | .endAt e =>
    if 0 < e then lines.take e ++ fmtValue key value :: lines.drop e else lines
  | .noHit => lines

/-! ## Project model and aggregation (`models.py`) -/

/-- `STATUS_RANK` from `models.py`. -/
def STATUS_RANK : List (String × Nat) :=
  [("active", 1), ("in progress", 1), ("running", 1),
   ("ready", 2), ("stuck", 2), ("blocked", 2),
   ("paused", 3), ("backlog", 4)]

/-- `PRIORITY_RANK` from `models.py`. -/
def PRIORITY_RANK : List (String × Nat) :=
  [("high", 1), ("medium", 2), ("med", 2), ("low", 3)]

/-- `Project` from `models.py` (the `dir_path` is modelled by the directory's
name). -/
structure Project where
  name : String
  dir_path : String
  has_overview : Bool := true
  status : String := "Unknown"
  priority : String := "Low"
  next_action : String := ""
  energy : String := ""
  time_estimate : String := ""
  project_type : String := ""
  code_path : String := ""
  docker_name : String := ""
  tags : List String := []
  title : String := ""
  doc : Option ParsedDocument := none
deriving DecidableEq

/-- `Project.sort_key` from `models.py`. -/
def Project.sort_key (p : Project) : Nat × Nat × String :=
  ((STATUS_RANK.lookup (lowerS p.status)).getD 5,
   (PRIORITY_RANK.lookup (lowerS p.priority)).getD 4,
   lowerS p.name)

/-- An immediate child of the projects root: its base name, whether it is a
directory, and the text of its `_OVERVIEW.md` when that file exists. -/
structure DirEntry where
  name : String
  isDir : Bool
  overview : Option String
deriving DecidableEq

/-- `Project.from_directory` from `models.py`. -/
def Project.from_directory (yamlLoad : YamlOracle) (e : DirEntry) : Project :=
  match e.overview with
  | none => { name := e.name, dir_path := e.name, has_overview := false }
  | some text =>
    let doc := parse_document yamlLoad text
    let tags :=
      match doc.frontmatter.lookup "Tags" with
      | some (.list xs) => xs
      | _ => []
    { name := e.name
      dir_path := e.name
      has_overview := true
      status := doc.get "Status" "Unknown"
      priority := doc.get "Priority" "Low"
      next_action := doc.get "Next_action" ""
      energy := doc.get "Energy_required" ""
      time_estimate := doc.get "Time_estimate" ""
      project_type := doc.get "Type" ""
      code_path := doc.get "code_path" ""
      docker_name := doc.get "docker_name" ""
      tags := tags
      title := if doc.title ≠ "" then doc.title else e.name
      doc := some doc }

/-- The sort key of `projects.sort(key=lambda p: (0 if p.has_overview else 1,
p.sort_key))`. -/
def scanKey (p : Project) : Nat × Nat × Nat × String :=
  ((if p.has_overview then 0 else 1), p.sort_key)

/-- Lexicographic comparison of scan keys (model of Python tuple `<=` on the
sort keys). -/
def keyTupleLe (a b : Nat × Nat × Nat × String) : Bool :=
  decide (a.1 < b.1) ||
    (decide (a.1 = b.1) &&
      (decide (a.2.1 < b.2.1) ||
        (decide (a.2.1 = b.2.1) &&
          (decide (a.2.2.1 < b.2.2.1) ||
            (decide (a.2.2.1 = b.2.2.1) && strLe a.2.2.2 b.2.2.2)))))

/-- The order `projects.sort` sorts by in `scan_projects`. -/
def projLe (p q : Project) : Prop := keyTupleLe (scanKey p) (scanKey q) = true

instance : DecidableRel projLe := fun p q => instDecidableEqBool _ _

/-- Name order on directory entries (model of Python `sorted(path.iterdir())`,
which orders paths by name). -/
def entryNameLe (a b : DirEntry) : Prop := strLe a.name b.name = true

instance : DecidableRel entryNameLe := fun a b => instDecidableEqBool _ _

/-- `scan_projects` from `models.py`, over an optional directory listing
(`none` models a non-existent root). -/
def scan_projects (yamlLoad : YamlOracle) (root : Option (List DirEntry)) : List Project :=
  match root with
  | none => []
  | some items =>
    let children :=
      (List.insertionSort entryNameLe items).filter
        (fun e => e.isDir && !(startsW e.name ".") && !(startsW e.name "_"))
    List.insertionSort projLe (children.map (Project.from_directory yamlLoad))

/-- Model of Python `sub in s` (substring containment). -/
def containsSub (s sub : String) : Bool :=
  (List.range (s.data.length + 1)).any (fun i => isPrefixL sub.data (s.data.drop i))

/-- `resolve_project` from `models.py`: exact directory-name match first, then
the first case-insensitive substring match in name order. -/
def resolve_project (yamlLoad : YamlOracle) (root : Option (List DirEntry))
    (query : String) : Option Project :=
  match root with
  | none => none
  | some items =>
    match items.find? (fun e => e.name == query && e.isDir) with
    | some e => some (Project.from_directory yamlLoad e)
    | none =>
      ((List.insertionSort entryNameLe items).find?
          (fun e => e.isDir && containsSub (lowerS e.name) (lowerS query))).map
        (Project.from_directory yamlLoad)

/-! ## Journal store (`services/journal.py`) -/

/-- One entry returned by `recent_entries`. -/
structure JEntry where
  date : String
  time : String
  project : String
  note : String
  file : String
deriving DecidableEq

/-- The `time` parsed from a `## ` header line: the part of the stripped
header before the first em dash, stripped (`parts[0].strip()`). -/
def headerTime (line : String) : String :=
  strip (String.mk (splitOnce '—' (strip (dropS line 3)).data).1)

/-- The `project` parsed from a `## ` header line: the part after the first
em dash, stripped, or `""` when there is no em dash
(`parts[1].strip() if len(parts) > 1 else ""`). -/
def headerProject (line : String) : String :=
  match (splitOnce '—' (strip (dropS line 3)).data).2 with
  | some rest => strip (String.mk rest)
  | none => ""

/-- The per-file line loop of `recent_entries`: `t`/`p` are
`current_time`/`current_project`, `content` is `current_lines`, `acc` the
entries list built so far.  An entry is flushed only when both its time and
its project are non-empty (truthy in Python). -/
def journal_lines (date file : String) : List String → String → String → List String →
    List JEntry → List JEntry
  | [], t, p, content, acc =>
    if t ≠ "" ∧ p ≠ "" then
      acc ++ [⟨date, t, p, strip (String.intercalate "\n" content), file⟩]
    else acc
  | line :: rest, t, p, content, acc =>
    if startsW line "## " && containsC line '—' then
      let acc' :=
        if t ≠ "" ∧ p ≠ "" then
          acc ++ [⟨date, t, p, strip (String.intercalate "\n" content), file⟩]
        else acc
      journal_lines date file rest (headerTime line) (headerProject line) [] acc'
    else if t ≠ "" then journal_lines date file rest t p (content ++ [line]) acc
    else journal_lines date file rest t p content acc

/-- Parsing of one day file `(stem, text)` by `recent_entries`; the `date` is
the file's stem. -/
def parse_day_file (f : String × String) : List JEntry :=
  journal_lines f.1 (f.1 ++ ".md") (splitLines f.2) "" "" [] []

/-- Reverse name order on day files (model of
`sorted(jdir.glob("*.md"), reverse=True)`). -/
def fileGe (a b : String × String) : Prop := strLe b.1 a.1 = true

instance : DecidableRel fileGe := fun a b => instDecidableEqBool _ _

/-- The per-file accumulation loop of `recent_entries`, with its early break
once `limit` entries have accumulated. -/
def recentGo (limit : Nat) : List (String × String) → List JEntry → List JEntry
  | [], acc => acc
  | f :: rest, acc =>
    let acc' := acc ++ parse_day_file f
    if limit ≤ acc'.length then acc' else recentGo limit rest acc'

/-- `recent_entries` from `services/journal.py`, over the journal directory's
`(stem, text)` files: newest-name-first, at most 7 files, truncated to
`limit`. -/
def recent_entries (files : List (String × String)) (limit : Nat) : List JEntry :=
  let fs := (List.insertionSort fileGe files).take 7
  (recentGo limit fs []).take limit






/-! ## Claim-side descriptions used to state the claims -/

/-- Claim-side view of the section scan: the list of `(heading, contentLines)`
blocks in order of appearance (duplicates kept), where a block's heading is
the stripped text of its `## ` line and its content lines are exactly the
lines between that line and the next `## ` line or the end of the body.
The arguments mirror the scan state of `extract_sections`. -/
def collectBlocks : List String → String → List String → List (String × List String)
  | [], h, content => if h ≠ "" then [(h, content)] else []
  | line :: rest, h, content =>
    if startsW line "## " then
      (if h ≠ "" then [(h, content)] else []) ++ collectBlocks rest (strip (dropS line 3)) []
    else if h ≠ "" then collectBlocks rest h (content ++ [line])
    else collectBlocks rest h content

/-- The section blocks of a body, in order of appearance. -/
def sectionBlocks (lines : List String) : List (String × List String) :=
  collectBlocks lines "" []

/-- First-occurrence deduplication of a key list (the key order of an
insertion-ordered dict built by repeated assignment). -/
def firstDedup (l : List String) : List String :=
  l.foldl (fun acc x => if x ∈ acc then acc else acc ++ [x]) []

/-- Concatenation of the appended-section texts of `merge_documents`. -/
def concatSecs : List (String × String) → String
  | [] => ""
  | hc :: rest => ("\n\n## " ++ hc.1 ++ "\n" ++ hc.2) ++ concatSecs rest

/-- Modelled from the claim's words for `merge`: primary's body with every
secondary section whose heading is absent in primary appended, in secondary
order, with no condition on the section's content. -/
def mergeClaimed (primary secondary : ParsedDocument) : String :=
  primary.body ++
    concatSecs (secondary.sections.filter
      (fun hc => !(primary.sections.map Prod.fst).contains hc.1))

/-- The amended description of `merge`: as `mergeClaimed`, but a section is
appended only when its content does not strip to the empty string. -/
def mergeAmendedSpec (primary secondary : ParsedDocument) : String :=
  primary.body ++
    concatSecs (secondary.sections.filter
      (fun hc => !(primary.sections.map Prod.fst).contains hc.1 && strip hc.2 ≠ ""))

/-- Lexicographic comparison of `Project.sort_key` tuples (rank order of the
claim). -/
def sortKeyLe (a b : Nat × Nat × String) : Bool :=
  decide (a.1 < b.1) ||
    (decide (a.1 = b.1) &&
      (decide (a.2.1 < b.2.1) || (decide (a.2.1 = b.2.1) && strLe a.2.2 b.2.2)))

/-! ## Helper lemmas -/

theorem findCloseSplit_some (cl : String) (hcl : strip cl = "---") :
    ∀ pre post, (∀ l ∈ pre, strip l ≠ "---") →
      findCloseSplit (pre ++ cl :: post) = some (pre, post) := by
  intro pre
  induction pre with
  | nil => intro post _; simp [findCloseSplit, hcl]
  | cons a as ih =>
    intro post h
    have ha : strip a ≠ "---" := h a (List.mem_cons_self a as)
    have hih := ih post (fun l hl => h l (List.mem_cons_of_mem a hl))
    simp [findCloseSplit, ha, hih]

theorem findCloseSplit_none : ∀ ls, (∀ l ∈ ls, strip l ≠ "---") →
    findCloseSplit ls = none := by
  intro ls
  induction ls with
  | nil => intro _; rfl
  | cons a as ih =>
    intro h
    have ha : strip a ≠ "---" := h a (List.mem_cons_self a as)
    simp only [findCloseSplit, if_neg ha, ih (fun l hl => h l (List.mem_cons_of_mem a hl))]

theorem extract_metadata_body (d : ParsedDocument) : (_extract_metadata d).body = d.body := rfl

theorem extract_metadata_frontmatter (d : ParsedDocument) :
    (_extract_metadata d).frontmatter = d.frontmatter := rfl

/-! ## Claim C1 -/

/-- C1: `parse_document` strips frontmatter only when the first line of the
text strips to `---` and some later line strips to `---`; then the body is
the join of the lines after the first such closing line.  When the first line
is not a delimiter, or no closing delimiter exists, the whole text is the
body and the frontmatter is empty. -/
theorem claim1_frontmatter_stripping (yl : YamlOracle) (text : String) :
    (∀ op pre cl post,
        splitLines text = op :: (pre ++ cl :: post) →
        strip op = "---" → strip cl = "---" → (∀ l ∈ pre, strip l ≠ "---") →
        (parse_document yl text).body = String.intercalate "\n" post) ∧
    (∀ op rest,
        splitLines text = op :: rest → strip op ≠ "---" →
        (parse_document yl text).body = text ∧
          (parse_document yl text).frontmatter = []) ∧
    (∀ op rest,
        splitLines text = op :: rest → (∀ l ∈ rest, strip l ≠ "---") →
        (parse_document yl text).body = text ∧
          (parse_document yl text).frontmatter = []) := by
  refine ⟨?_, ?_, ?_⟩
  · intro op pre cl post hsplit hop hcl hpre
    unfold parse_document
    rw [hsplit]
    simp only [hop, ne_eq, not_true_eq_false, if_false,
      findCloseSplit_some cl hcl pre post hpre, extract_metadata_body]
  · intro op rest hsplit hop
    unfold parse_document
    rw [hsplit]
    simp only [hop, ne_eq, not_false_eq_true, if_true, extract_metadata_body,
      extract_metadata_frontmatter]
    exact ⟨trivial, trivial⟩
  · intro op rest hsplit hrest
    unfold parse_document
    rw [hsplit]
    by_cases hop : strip op = "---"
    · simp only [hop, ne_eq, not_true_eq_false, if_false, findCloseSplit_none rest hrest,
        extract_metadata_body, extract_metadata_frontmatter]
      exact ⟨trivial, trivial⟩
    · simp only [hop, ne_eq, not_false_eq_true, if_true, extract_metadata_body,
        extract_metadata_frontmatter]
      exact ⟨trivial, trivial⟩

/-- Witness for C1: concrete files exercising all three cases. -/
theorem claim1_frontmatter_stripping_witness :
    (parse_document (fun _ => none) "---\nA: 1\n---\nbody").body = "body" ∧
    ((parse_document (fun _ => none) "no frontmatter\n---\nx").body = "no frontmatter\n---\nx" ∧
      (parse_document (fun _ => none) "no frontmatter\n---\nx").frontmatter = []) ∧
    ((parse_document (fun _ => none) "---\nA: [unclosed\nrest").body = "---\nA: [unclosed\nrest" ∧
      (parse_document (fun _ => none) "---\nA: [unclosed\nrest").frontmatter = []) := by
  refine ⟨?_, ?_, ?_⟩
  · exact (claim1_frontmatter_stripping (fun _ => none) "---\nA: 1\n---\nbody").1
      "---" ["A: 1"] "---" ["body"] (by decide) (by decide) (by decide) (by decide)
  · exact (claim1_frontmatter_stripping (fun _ => none) "no frontmatter\n---\nx").2.1
      "no frontmatter" ["---", "x"] (by decide) (by decide)
  · exact (claim1_frontmatter_stripping (fun _ => none) "---\nA: [unclosed\nrest").2.2
      "---" ["A: [unclosed", "rest"] (by decide) (by decide)

/-! ## Claim C2 -/

/-- C2: when the text has both delimiters but the frontmatter block is
malformed YAML or parses to a non-mapping (the oracle returns `none`),
`parse_document` still returns — with an empty frontmatter mapping, the body
set to everything after the closing delimiter line, and title/section
extraction run on that body.  Totality of `parse_document` is the model-level
form of "never raises". -/
theorem claim2_malformed_frontmatter (yl : YamlOracle) (text : String)
    (op cl : String) (pre post : List String)
    (hsplit : splitLines text = op :: (pre ++ cl :: post))
    (hop : strip op = "---") (hcl : strip cl = "---")
    (hpre : ∀ l ∈ pre, strip l ≠ "---")
    (hyaml : yl (String.intercalate "\n" pre) = none) :
    (parse_document yl text).frontmatter = [] ∧
    (parse_document yl text).body = String.intercalate "\n" post ∧
    (parse_document yl text).title =
      extract_title (splitLines (parse_document yl text).body) ∧
    (parse_document yl text).sections =
      extract_sections (splitLines (parse_document yl text).body) "" [] [] := by
  unfold parse_document
  rw [hsplit]
  simp only [hop, ne_eq, not_true_eq_false, if_false,
    findCloseSplit_some cl hcl pre post hpre, hyaml, Option.getD_none,
    _extract_metadata]
  exact ⟨trivial, trivial, trivial, trivial⟩

/-- Witness for C2: the spec's own example, `Status: [unclosed` inside the
delimiters. -/
theorem claim2_malformed_frontmatter_witness :
    (parse_document (fun _ => none) "---\nStatus: [unclosed\n---\n# T\n\n## A\nx").frontmatter
        = [] ∧
    (parse_document (fun _ => none) "---\nStatus: [unclosed\n---\n# T\n\n## A\nx").body
        = "# T\n\n## A\nx" ∧
    (parse_document (fun _ => none) "---\nStatus: [unclosed\n---\n# T\n\n## A\nx").title
        = extract_title (splitLines (parse_document (fun _ => none)
            "---\nStatus: [unclosed\n---\n# T\n\n## A\nx").body) ∧
    (parse_document (fun _ => none) "---\nStatus: [unclosed\n---\n# T\n\n## A\nx").sections
        = extract_sections (splitLines (parse_document (fun _ => none)
            "---\nStatus: [unclosed\n---\n# T\n\n## A\nx").body) "" [] [] := by
  have h := claim2_malformed_frontmatter (fun _ => none)
    "---\nStatus: [unclosed\n---\n# T\n\n## A\nx" "---" "---"
    ["Status: [unclosed"] ["# T", "", "## A", "x"]
    (by decide) (by decide) (by decide) (by decide) rfl
  refine ⟨h.1, ?_, h.2.2.1, h.2.2.2⟩
  rw [h.2.1]
  decide

/-! ## Claim C3 -/

theorem dictSet_keys (d : List (String × String)) (k v : String) :
    (dictSet d k v).map Prod.fst =
      if k ∈ d.map Prod.fst then d.map Prod.fst else d.map Prod.fst ++ [k] := by
  induction d with
  | nil => simp [dictSet]
  | cons kv rest ih =>
    obtain ⟨k', v'⟩ := kv
    by_cases hk : k' = k
    · subst hk
      simp [dictSet]
    · by_cases hm : k ∈ rest.map Prod.fst
      · simp [dictSet, hk, ih, hm, Ne.symm hk]
      · simp [dictSet, hk, ih, hm, Ne.symm hk]

theorem dictSet_lookup (d : List (String × String)) (k v k' : String) :
    (dictSet d k v).lookup k' = if k' = k then some v else d.lookup k' := by
  induction d with
  | nil =>
    by_cases h : k' = k
    · simp [dictSet, List.lookup, h]
    · have hb : (k' == k) = false := beq_eq_false_iff_ne.mpr h
      simp [dictSet, List.lookup, hb, h]
  | cons kv rest ih =>
    obtain ⟨a, b⟩ := kv
    by_cases hak : a = k
    · subst hak
      by_cases h : k' = a
      · simp [dictSet, List.lookup, h]
      · have hb : (k' == a) = false := beq_eq_false_iff_ne.mpr h
        simp [dictSet, List.lookup, hb, h]
    · by_cases h : k' = a
      · subst h
        have hka : ¬ k' = k := fun hc => hak (hc ▸ rfl)
        simp [dictSet, hak, List.lookup, hka]
      · have hb : (k' == a) = false := beq_eq_false_iff_ne.mpr h
        by_cases hk : k' = k
        · subst hk
          simp [dictSet, hak, List.lookup, hb, ih]
        · simp [dictSet, hak, List.lookup, hb, hk, ih]

theorem extract_sections_eq_fold :
    ∀ (lines : List String) (h : String) (content : List String)
      (secs : List (String × String)),
      extract_sections lines h content secs =
        (collectBlocks lines h content).foldl
          (fun d b => dictSet d b.1 (strip (String.intercalate "\n" b.2))) secs := by
  intro lines
  induction lines with
  | nil =>
    intro h content secs
    by_cases hh : h = "" <;> simp [extract_sections, collectBlocks, hh]
  | cons line rest ih =>
    intro h content secs
    by_cases hl : startsW line "## " = true
    · by_cases hh : h = "" <;>
        simp [extract_sections, collectBlocks, hl, hh, List.foldl_append, ih]
    · by_cases hh : h = "" <;>
        simp [extract_sections, collectBlocks, hl, hh, ih]

theorem foldl_dictSet_keys :
    ∀ (blocks : List (String × List String)) (d : List (String × String)),
      ((blocks.foldl
          (fun d b => dictSet d b.1 (strip (String.intercalate "\n" b.2))) d).map Prod.fst)
        = blocks.foldl (fun acc b => if b.1 ∈ acc then acc else acc ++ [b.1])
            (d.map Prod.fst) := by
  intro blocks
  induction blocks with
  | nil => intro d; rfl
  | cons b bs ih =>
    intro d
    simp only [List.foldl_cons, ih, dictSet_keys]

theorem foldl_dictSet_lookup :
    ∀ (blocks : List (String × List String)) (d : List (String × String)) (h : String),
      (blocks.foldl
          (fun d b => dictSet d b.1 (strip (String.intercalate "\n" b.2))) d).lookup h
        = match (blocks.filter (fun b => b.1 = h)).getLast? with
          | some b => some (strip (String.intercalate "\n" b.2))
          | none => d.lookup h := by
  intro blocks
  induction blocks with
  | nil => intro d h; rfl
  | cons b bs ih =>
    intro d h
    simp only [List.foldl_cons, ih]
    by_cases hb : b.1 = h
    · rcases hcons : bs.filter (fun x => decide (x.1 = h)) with _ | ⟨c, cs⟩
      · simp [List.filter_cons, hb, hcons, dictSet_lookup]
      · rcases hgl : (c :: cs).getLast? with _ | b'
        · exact absurd (List.getLast?_eq_none.mp hgl) (List.cons_ne_nil c cs)
        · simp [List.filter_cons, hb, hcons, List.getLast?_cons_cons, hgl]
    · have hbh : ¬ h = b.1 := fun hc => hb hc.symm
      rcases hfilt : (bs.filter (fun x => decide (x.1 = h))).getLast? with _ | b'
      · simp [List.filter_cons, hb, hfilt, dictSet_lookup, hbh]
      · simp [List.filter_cons, hb, hfilt]

theorem parse_document_is_extract (yl : YamlOracle) (text : String) :
    ∃ d, parse_document yl text = _extract_metadata d := by
  unfold parse_document
  split
  · exact ⟨_, rfl⟩
  · split
    · exact ⟨_, rfl⟩
    · split
      · exact ⟨_, rfl⟩
      · exact ⟨_, rfl⟩

theorem parse_document_title (yl : YamlOracle) (text : String) :
    (parse_document yl text).title =
      extract_title (splitLines (parse_document yl text).body) := by
  obtain ⟨d, hd⟩ := parse_document_is_extract yl text
  rw [hd]
  rfl

theorem parse_document_sections (yl : YamlOracle) (text : String) :
    (parse_document yl text).sections =
      extract_sections (splitLines (parse_document yl text).body) "" [] [] := by
  obtain ⟨d, hd⟩ := parse_document_is_extract yl text
  rw [hd]
  rfl

/-- Counterexample to C3 as stated: in the body `"## A\n\nx\n\n## B\ny"` the
verbatim text between the `## A` line and the `## B` line is `"\nx\n"`
(the lines `""`, `"x"`, `""` joined), but the stored section content is the
whitespace-stripped `"x"`. -/
theorem claim3_sections_cex :
    (parse_document (fun _ => none) "## A\n\nx\n\n## B\ny").sections.lookup "A"
        = some "x" ∧
    (parse_document (fun _ => none) "## A\n\nx\n\n## B\ny").sections.lookup "A"
        ≠ some "\nx\n" ∧
    String.intercalate "\n" ["", "x", ""] = "\nx\n" := by decide

/-- C3 (amended): the sections mapping maps each level-2 heading's stripped
text to the text between that `## ` line and the next `## ` line or end of
body, joined with newlines and stripped of leading and trailing whitespace;
keys appear in order of first insertion matching order of appearance, and
when the same heading occurs more than once the last occurrence's content
wins under that key. -/
theorem claim3_sections_amended (yl : YamlOracle) (text : String) :
    (parse_document yl text).sections.map Prod.fst =
      firstDedup ((sectionBlocks (splitLines (parse_document yl text).body)).map Prod.fst) ∧
    ∀ h, (parse_document yl text).sections.lookup h =
      (((sectionBlocks (splitLines (parse_document yl text).body)).filter
          (fun b => b.1 = h)).getLast?).map
        (fun b => strip (String.intercalate "\n" b.2)) := by
  have hs : (parse_document yl text).sections =
      (sectionBlocks (splitLines (parse_document yl text).body)).foldl
        (fun d b => dictSet d b.1 (strip (String.intercalate "\n" b.2))) [] := by
    rw [parse_document_sections yl text, extract_sections_eq_fold]
    rfl
  constructor
  · rw [hs, foldl_dictSet_keys]
    rw [firstDedup, List.foldl_map]
    rfl
  · intro h
    rw [hs, foldl_dictSet_lookup]
    rcases hgl : ((sectionBlocks (splitLines (parse_document yl text).body)).filter
        (fun b => b.1 = h)).getLast? with _ | b <;> simp [hgl, List.lookup]

/-! ## Claim C6 -/

theorem merge_foldl_eq (heads : List String) :
    ∀ (l : List (String × String)) (acc : String),
      l.foldl
        (fun merged hc =>
          if ¬ heads.contains hc.1 ∧ strip hc.2 ≠ "" then
            merged ++ "\n\n## " ++ hc.1 ++ "\n" ++ hc.2
          else merged) acc
        = acc ++ concatSecs (l.filter
            (fun hc => !heads.contains hc.1 && strip hc.2 ≠ "")) := by
  intro l
  induction l with
  | nil => intro acc; simp [concatSecs, String.append_empty]
  | cons hc rest ih =>
    intro acc
    by_cases hq : ¬ heads.contains hc.1 ∧ strip hc.2 ≠ ""
    · rw [List.foldl_cons, if_pos hq, ih]
      have hcond : hc.1 ∉ heads ∧ ¬ strip hc.2 = "" := ⟨by simpa using hq.1, hq.2⟩
      simp [List.filter_cons, hcond.1, hcond.2, concatSecs, String.append_assoc]
    · rw [List.foldl_cons, if_neg hq, ih]
      rcases not_and_or.mp hq with h1 | h2
      · have hmem : hc.1 ∈ heads := by simpa using h1
        simp [List.filter_cons, hmem]
      · have hstr : strip hc.2 = "" := by simpa using h2
        simp [List.filter_cons, hstr]

/-- Counterexample to C6 as stated: the secondary document parsed from
`"## A\n## B\nx"` has section `A` (with empty content) and section `B`; the
primary parsed from `"P"` has no sections.  The claim as stated appends every
secondary-only section, so it would append `## A`; the code skips sections
whose content strips to empty, so `## A` is not appended. -/
theorem claim6_merge_cex :
    merge_documents (parse_document (fun _ => none) "P")
        (parse_document (fun _ => none) "## A\n## B\nx")
      = "P\n\n## B\nx" ∧
    mergeClaimed (parse_document (fun _ => none) "P")
        (parse_document (fun _ => none) "## A\n## B\nx")
      = "P\n\n## A\n\n\n## B\nx" ∧
    (parse_document (fun _ => none) "## A\n## B\nx").sections.map Prod.fst = ["A", "B"] ∧
    (parse_document (fun _ => none) "P").sections = [] ∧
    merge_documents (parse_document (fun _ => none) "P")
        (parse_document (fun _ => none) "## A\n## B\nx")
      ≠ mergeClaimed (parse_document (fun _ => none) "P")
        (parse_document (fun _ => none) "## A\n## B\nx") := by decide

/-- C6 (amended): `merge_documents` returns the primary's body with every
secondary section whose heading is absent (by heading key) in the primary
*and whose content does not strip to the empty string* appended at the end,
in the secondary's iteration order; a section whose heading exists in the
primary is never overwritten by the secondary's content. -/
theorem claim6_merge_amended (p s : ParsedDocument) :
    merge_documents p s = mergeAmendedSpec p s := by
  unfold merge_documents mergeAmendedSpec
  exact merge_foldl_eq (p.sections.map Prod.fst) s.sections p.body

/-! ## Claims C4 and C5 -/

theorem scanFm_open (key op : String) (ls : List String) (i : Nat)
    (hop : strip op = "---") :
    scanFm key (op :: ls) i false = scanFm key ls (i + 1) true := by
  simp [scanFm, hop]

theorem scanFm_keyAt (key kl : String) (hkl : startsW kl (key ++ ":") = true)
    (hklnd : strip kl ≠ "---") :
    ∀ (pre rest : List String) (i : Nat),
      (∀ l ∈ pre, strip l ≠ "---" ∧ startsW l (key ++ ":") = false) →
      scanFm key (pre ++ kl :: rest) i true = .keyAt (i + pre.length) := by
  intro pre
  induction pre with
  | nil =>
    intro rest i _
    simp [scanFm, hklnd, hkl]
  | cons a as ih =>
    intro rest i h
    have ha := h a (List.mem_cons_self a as)
    have hrec := ih rest (i + 1) (fun l hl => h l (List.mem_cons_of_mem a hl))
    rw [List.cons_append]
    rw [show scanFm key (a :: (as ++ kl :: rest)) i true
        = scanFm key (as ++ kl :: rest) (i + 1) true by simp [scanFm, ha.1, ha.2]]
    rw [hrec]
    congr 1
    simp
    omega

theorem scanFm_endAt (key cl : String) (hcl : strip cl = "---") :
    ∀ (fm rest : List String) (i : Nat),
      (∀ l ∈ fm, strip l ≠ "---" ∧ startsW l (key ++ ":") = false) →
      scanFm key (fm ++ cl :: rest) i true = .endAt (i + fm.length) := by
  intro fm
  induction fm with
  | nil =>
    intro rest i _
    simp [scanFm, hcl]
  | cons a as ih =>
    intro rest i h
    have ha := h a (List.mem_cons_self a as)
    have hrec := ih rest (i + 1) (fun l hl => h l (List.mem_cons_of_mem a hl))
    rw [List.cons_append]
    rw [show scanFm key (a :: (as ++ cl :: rest)) i true
        = scanFm key (as ++ cl :: rest) (i + 1) true by simp [scanFm, ha.1, ha.2]]
    rw [hrec]
    congr 1
    simp
    omega

theorem dropWhile_append_stop (p : String → Bool) (post rest2 : List String) (x : String)
    (hx : p x = false) :
    List.dropWhile p (post ++ x :: rest2) = post.dropWhile p ++ x :: rest2 := by
  rw [List.dropWhile_append]
  by_cases h : (post.dropWhile p).isEmpty = true
  · rw [if_pos h]
    rw [List.isEmpty_iff] at h
    simp [h, List.dropWhile_cons, hx]
  · rw [if_neg h]

theorem write_yaml_found (key value : String) (pre post body : List String) (kl : String)
    (hkl : startsW kl (key ++ ":") = true) (hklnd : strip kl ≠ "---")
    (hpre : ∀ l ∈ pre, strip l ≠ "---" ∧ startsW l (key ++ ":") = false) :
    write_yaml ("---" :: pre ++ kl :: (post ++ "---" :: body)) key value
      = "---" :: pre ++ fmtValue key value ::
          ((post.dropWhile (fun l => startsW l "- ")) ++ "---" :: body) := by
  unfold write_yaml
  rw [List.cons_append, scanFm_open key "---" _ 0 (by decide),
    scanFm_keyAt key kl hkl hklnd pre _ 1 hpre]
  dsimp only
  rw [show List.take (1 + pre.length) ("---" :: (pre ++ kl :: (post ++ "---" :: body)))
      = "---" :: pre by
    rw [show "---" :: (pre ++ kl :: (post ++ "---" :: body))
        = ("---" :: pre) ++ (kl :: (post ++ "---" :: body)) by simp]
    exact List.take_left' (by simp [Nat.add_comm])]
  rw [show List.drop (1 + pre.length + 1) ("---" :: (pre ++ kl :: (post ++ "---" :: body)))
      = post ++ "---" :: body by
    rw [show "---" :: (pre ++ kl :: (post ++ "---" :: body))
        = ("---" :: pre ++ [kl]) ++ (post ++ "---" :: body) by simp]
    exact List.drop_left' (by simp; omega)]
  rw [dropWhile_append_stop _ _ _ _ (by decide)]

theorem write_yaml_absent (key value : String) (fm body : List String)
    (hfm : ∀ l ∈ fm, strip l ≠ "---" ∧ startsW l (key ++ ":") = false) :
    write_yaml ("---" :: fm ++ "---" :: body) key value
      = "---" :: fm ++ fmtValue key value :: "---" :: body := by
  unfold write_yaml
  rw [List.cons_append, scanFm_open key "---" _ 0 (by decide),
    scanFm_endAt key "---" (by decide) fm body 1 hfm]
  dsimp only
  rw [if_pos (by omega)]
  rw [show List.take (1 + fm.length) ("---" :: (fm ++ "---" :: body)) = "---" :: fm by
    rw [show "---" :: (fm ++ "---" :: body) = ("---" :: fm) ++ ("---" :: body) by simp]
    exact List.take_left' (by simp [Nat.add_comm])]
  rw [show List.drop (1 + fm.length) ("---" :: (fm ++ "---" :: body)) = "---" :: body by
    rw [show "---" :: (fm ++ "---" :: body) = ("---" :: fm) ++ ("---" :: body) by simp]
    exact List.drop_left' (by simp [Nat.add_comm])]

theorem dropWhile_idem (p : String → Bool) :
    ∀ l : List String, List.dropWhile p (List.dropWhile p l) = List.dropWhile p l := by
  intro l
  induction l with
  | nil => rfl
  | cons a l ih =>
    by_cases h : p a = true
    · simp [List.dropWhile_cons, h, ih]
    · simp [List.dropWhile_cons, h]

/-- C4: on a file whose lines are an opening delimiter, frontmatter lines, a
closing delimiter and the body, `write_yaml` replaces the first line beginning
with `key:` by the freshly formatted line (quoting the value when it contains
a space), deletes the immediately following `- ` list-item lines, inserts the
formatted line immediately before the closing delimiter when no line begins
with `key:`, and leaves every other line unchanged and in order. -/
theorem claim4_write_field (key value : String) :
    (∀ pre post body kl,
        startsW kl (key ++ ":") = true → strip kl ≠ "---" →
        (∀ l ∈ pre, strip l ≠ "---" ∧ startsW l (key ++ ":") = false) →
        write_yaml ("---" :: pre ++ kl :: (post ++ "---" :: body)) key value
          = "---" :: pre ++ fmtValue key value ::
              ((post.dropWhile (fun l => startsW l "- ")) ++ "---" :: body)) ∧
    (∀ fm body,
        (∀ l ∈ fm, strip l ≠ "---" ∧ startsW l (key ++ ":") = false) →
        write_yaml ("---" :: fm ++ "---" :: body) key value
          = "---" :: fm ++ fmtValue key value :: "---" :: body) ∧
    fmtValue key value
      = (if containsC value ' ' then key ++ ": \"" ++ value ++ "\""
         else key ++ ": " ++ value) :=
  ⟨fun pre post body kl hkl hklnd hpre =>
      write_yaml_found key value pre post body kl hkl hklnd hpre,
   fun fm body hfm => write_yaml_absent key value fm body hfm,
   rfl⟩

/-- Witness for C4: a present key with a stale list value, and an absent key
with a space-containing value. -/
theorem claim4_write_field_witness :
    write_yaml ["---", "Status: Old", "- x", "Priority: High", "---", "body"]
        "Status" "Active"
      = ["---", "Status: Active", "Priority: High", "---", "body"] ∧
    write_yaml ["---", "Priority: High", "---", "body"] "Status" "Active Now"
      = ["---", "Priority: High", "Status: \"Active Now\"", "---", "body"] := by
  constructor
  · have h := (claim4_write_field "Status" "Active").1
      [] ["- x", "Priority: High"] ["body"] "Status: Old" (by decide) (by decide)
      (by decide)
    exact h.trans (by decide)
  · have h := (claim4_write_field "Status" "Active Now").2.1
      ["Priority: High"] ["body"] (by decide)
    exact h.trans (by decide)

/-- C5: on a file whose lines are an opening delimiter, frontmatter lines, a
closing delimiter and the body, calling `write_yaml` with `Status`/`Active`
twice produces the same lines as calling it once; the exact result of the
single call shows the body and every frontmatter line other than the
`Status:` line and its immediately following `- ` list-item lines (the old
Status list value) byte-identical and in order. -/
theorem claim5_write_field_idempotent :
    (∀ pre post body kl,
        startsW kl "Status:" = true → strip kl ≠ "---" →
        (∀ l ∈ pre, strip l ≠ "---" ∧ startsW l "Status:" = false) →
        write_yaml (write_yaml ("---" :: pre ++ kl :: (post ++ "---" :: body))
              "Status" "Active") "Status" "Active"
          = write_yaml ("---" :: pre ++ kl :: (post ++ "---" :: body))
              "Status" "Active" ∧
        write_yaml ("---" :: pre ++ kl :: (post ++ "---" :: body)) "Status" "Active"
          = "---" :: pre ++ "Status: Active" ::
              ((post.dropWhile (fun l => startsW l "- ")) ++ "---" :: body)) ∧
    (∀ fm body,
        (∀ l ∈ fm, strip l ≠ "---" ∧ startsW l "Status:" = false) →
        write_yaml (write_yaml ("---" :: fm ++ "---" :: body) "Status" "Active")
            "Status" "Active"
          = write_yaml ("---" :: fm ++ "---" :: body) "Status" "Active" ∧
        write_yaml ("---" :: fm ++ "---" :: body) "Status" "Active"
          = "---" :: fm ++ "Status: Active" :: "---" :: body) := by
  have hkey : ("Status" : String) ++ ":" = "Status:" := by decide
  have hfmt : fmtValue "Status" "Active" = "Status: Active" := by decide
  constructor
  · intro pre post body kl hkl hklnd hpre
    have hkl' : startsW kl ("Status" ++ ":") = true := by rw [hkey]; exact hkl
    have hpre' : ∀ l ∈ pre, strip l ≠ "---" ∧ startsW l ("Status" ++ ":") = false := by
      intro l hl
      rw [hkey]
      exact hpre l hl
    have h1 := write_yaml_found "Status" "Active" pre post body kl hkl' hklnd hpre'
    rw [hfmt] at h1
    refine ⟨?_, h1⟩
    rw [h1]
    have h2 := write_yaml_found "Status" "Active" pre
      (post.dropWhile (fun l => startsW l "- ")) body "Status: Active"
      (by decide) (by decide) hpre'
    rw [hfmt] at h2
    rw [h2, dropWhile_idem]
  · intro fm body hfm
    have hfm' : ∀ l ∈ fm, strip l ≠ "---" ∧ startsW l ("Status" ++ ":") = false := by
      intro l hl
      rw [hkey]
      exact hfm l hl
    have h1 := write_yaml_absent "Status" "Active" fm body hfm'
    rw [hfmt] at h1
    refine ⟨?_, h1⟩
    rw [h1]
    have h2 := write_yaml_found "Status" "Active" fm [] body "Status: Active"
      (by decide) (by decide) hfm'
    rw [hfmt] at h2
    exact h2.trans (by simp)

/-- Witness for C5: a concrete file in each of the two shapes; the single
call's result is computed to a literal line list, exhibiting the preserved
lines. -/
theorem claim5_write_field_idempotent_witness :
    (write_yaml (write_yaml ["---", "Status: Old", "- x", "Priority: High", "---", "body"]
          "Status" "Active") "Status" "Active"
        = write_yaml ["---", "Status: Old", "- x", "Priority: High", "---", "body"]
            "Status" "Active" ∧
      write_yaml ["---", "Status: Old", "- x", "Priority: High", "---", "body"]
          "Status" "Active"
        = ["---", "Status: Active", "Priority: High", "---", "body"]) ∧
    (write_yaml (write_yaml ["---", "Priority: High", "---", "body"] "Status" "Active")
          "Status" "Active"
        = write_yaml ["---", "Priority: High", "---", "body"] "Status" "Active" ∧
      write_yaml ["---", "Priority: High", "---", "body"] "Status" "Active"
        = ["---", "Priority: High", "Status: Active", "---", "body"]) := by
  constructor
  · have h := claim5_write_field_idempotent.1 [] ("- x" :: ["Priority: High"]) ["body"]
      "Status: Old" (by decide) (by decide) (by decide)
    exact ⟨h.1, h.2.trans (by decide)⟩
  · have h := claim5_write_field_idempotent.2 ["Priority: High"] ["body"] (by decide)
    exact ⟨h.1, h.2.trans (by decide)⟩

/-! ## Claims C7 and C8 -/

theorem charListLe_total : ∀ as bs : List Char,
    charListLe as bs = true ∨ charListLe bs as = true := by
  intro as
  induction as with
  | nil => intro bs; left; simp [charListLe]
  | cons a as ih =>
    intro bs
    cases bs with
    | nil => right; simp [charListLe]
    | cons b bs' =>
      by_cases hab : a.toNat = b.toNat
      · rcases ih bs' with h | h
        · left; simp [charListLe, hab, h]
        · right; simp [charListLe, hab.symm, h]
      · rcases Nat.lt_or_ge a.toNat b.toNat with hlt | hge
        · left; simp [charListLe, hlt]
        · have hgt : b.toNat < a.toNat :=
            Nat.lt_of_le_of_ne hge (fun hc => hab hc.symm)
          right; simp [charListLe, hgt]

theorem charListLe_trans : ∀ as bs cs : List Char,
    charListLe as bs = true → charListLe bs cs = true → charListLe as cs = true := by
  intro as
  induction as with
  | nil => intro bs cs _ _; simp [charListLe]
  | cons a as ih =>
    intro bs cs h1 h2
    cases bs with
    | nil => simp [charListLe] at h1
    | cons b bs' =>
      cases cs with
      | nil => simp [charListLe] at h2
      | cons c cs' =>
        simp only [charListLe, Bool.or_eq_true, Bool.and_eq_true,
          decide_eq_true_eq] at h1 h2 ⊢
        rcases h1 with h1 | ⟨he1, hr1⟩ <;> rcases h2 with h2 | ⟨he2, hr2⟩
        · exact Or.inl (by omega)
        · exact Or.inl (by omega)
        · exact Or.inl (by omega)
        · exact Or.inr ⟨by omega, ih bs' cs' hr1 hr2⟩

theorem boolLexLe_total (x y : Nat) (p q : Bool) (hpq : p = true ∨ q = true) :
    (decide (x < y) || (decide (x = y) && p)) = true ∨
      (decide (y < x) || (decide (y = x) && q)) = true := by
  rcases Nat.lt_trichotomy x y with h | h | h
  · left; simp [h]
  · subst h
    rcases hpq with hp | hq
    · left; simp [hp]
    · right; simp [hq]
  · right; simp [h]

theorem boolLexLe_trans (x y z : Nat) (p q r : Bool)
    (hpqr : p = true → q = true → r = true) :
    (decide (x < y) || (decide (x = y) && p)) = true →
    (decide (y < z) || (decide (y = z) && q)) = true →
    (decide (x < z) || (decide (x = z) && r)) = true := by
  intro h1 h2
  simp only [Bool.or_eq_true, Bool.and_eq_true, decide_eq_true_eq] at h1 h2 ⊢
  rcases h1 with h1 | ⟨he1, hp⟩ <;> rcases h2 with h2 | ⟨he2, hq⟩
  · exact Or.inl (by omega)
  · exact Or.inl (by omega)
  · exact Or.inl (by omega)
  · exact Or.inr ⟨by omega, hpqr hp hq⟩

theorem keyTupleLe_total (a b : Nat × Nat × Nat × String) :
    keyTupleLe a b = true ∨ keyTupleLe b a = true :=
  boolLexLe_total a.1 b.1 _ _
    (boolLexLe_total a.2.1 b.2.1 _ _
      (boolLexLe_total a.2.2.1 b.2.2.1 _ _ (charListLe_total _ _)))

theorem keyTupleLe_trans (a b c : Nat × Nat × Nat × String) :
    keyTupleLe a b = true → keyTupleLe b c = true → keyTupleLe a c = true :=
  boolLexLe_trans a.1 b.1 c.1 _ _ _
    (boolLexLe_trans a.2.1 b.2.1 c.2.1 _ _ _
      (boolLexLe_trans a.2.2.1 b.2.2.1 c.2.2.1 _ _ _ (charListLe_trans _ _ _)))

instance : IsTotal Project projLe :=
  ⟨fun p q => keyTupleLe_total (scanKey p) (scanKey q)⟩

instance : IsTrans Project projLe :=
  ⟨fun _ _ _ h1 h2 => keyTupleLe_trans _ _ _ h1 h2⟩

/-- C7: `scan_projects` returns the empty list when the root does not exist;
otherwise it is a permutation of the loaded Projects of exactly the child
directories whose names do not start with `.` or `_`, and in the returned
order every overview-bearing project precedes every overview-less one, and
two projects with the same overview state occur in rank order. -/
theorem claim7_scan_projects (yl : YamlOracle) :
    scan_projects yl none = [] ∧
    (∀ items : List DirEntry,
      (scan_projects yl (some items)).Perm
        ((items.filter
            (fun e => e.isDir && !(startsW e.name ".") && !(startsW e.name "_"))).map
          (Project.from_directory yl))) ∧
    (∀ items : List DirEntry,
      (scan_projects yl (some items)).Pairwise
        (fun p q =>
          (p.has_overview = true ∧ q.has_overview = false) ∨
          (p.has_overview = q.has_overview ∧
            sortKeyLe p.sort_key q.sort_key = true))) := by
  refine ⟨rfl, ?_, ?_⟩
  · intro items
    unfold scan_projects
    exact (List.perm_insertionSort projLe _).trans
      (((List.perm_insertionSort entryNameLe items).filter _).map _)
  · intro items
    unfold scan_projects
    have hs := List.sorted_insertionSort projLe
      (((List.insertionSort entryNameLe items).filter
          (fun e => e.isDir && !(startsW e.name ".") && !(startsW e.name "_"))).map
        (Project.from_directory yl))
    refine hs.imp ?_
    intro a b hab
    have hab' : keyTupleLe
        ((if a.has_overview then 0 else 1), a.sort_key)
        ((if b.has_overview then 0 else 1), b.sort_key) = true := hab
    rcases ha : a.has_overview <;> rcases hb : b.has_overview <;>
      rw [ha, hb] at hab'
    · refine Or.inr ⟨rfl, ?_⟩
      simpa [keyTupleLe, sortKeyLe] using hab'
    · simp [keyTupleLe] at hab'
    · exact Or.inl ⟨rfl, rfl⟩
    · refine Or.inr ⟨rfl, ?_⟩
      simpa [keyTupleLe, sortKeyLe] using hab'

theorem status_rank_table (s : String) :
    (STATUS_RANK.lookup s).getD 5
      = (if s ∈ (["active", "in progress", "running"] : List String) then 1
         else if s ∈ (["ready", "stuck", "blocked"] : List String) then 2
         else if s = "paused" then 3
         else if s = "backlog" then 4
         else 5) := by
  by_cases h1 : s = "active"
  · subst h1; decide
  · by_cases h2 : s = "in progress"
    · subst h2; decide
    · by_cases h3 : s = "running"
      · subst h3; decide
      · by_cases h4 : s = "ready"
        · subst h4; decide
        · by_cases h5 : s = "stuck"
          · subst h5; decide
          · by_cases h6 : s = "blocked"
            · subst h6; decide
            · by_cases h7 : s = "paused"
              · subst h7; decide
              · by_cases h8 : s = "backlog"
                · subst h8; decide
                · simp [STATUS_RANK, List.lookup,
                    beq_eq_false_iff_ne.mpr h1, beq_eq_false_iff_ne.mpr h2,
                    beq_eq_false_iff_ne.mpr h3, beq_eq_false_iff_ne.mpr h4,
                    beq_eq_false_iff_ne.mpr h5, beq_eq_false_iff_ne.mpr h6,
                    beq_eq_false_iff_ne.mpr h7, beq_eq_false_iff_ne.mpr h8,
                    h1, h2, h3, h4, h5, h6, h7, h8]

theorem priority_rank_table (s : String) :
    (PRIORITY_RANK.lookup s).getD 4
      = (if s = "high" then 1
         else if s ∈ (["medium", "med"] : List String) then 2
         else if s = "low" then 3
         else 4) := by
  by_cases h1 : s = "high"
  · subst h1; decide
  · by_cases h2 : s = "medium"
    · subst h2; decide
    · by_cases h3 : s = "med"
      · subst h3; decide
      · by_cases h4 : s = "low"
        · subst h4; decide
        · simp [PRIORITY_RANK, List.lookup,
            beq_eq_false_iff_ne.mpr h1, beq_eq_false_iff_ne.mpr h2,
            beq_eq_false_iff_ne.mpr h3, beq_eq_false_iff_ne.mpr h4,
            h1, h2, h3, h4]

/-- Counterexample to C8 as stated: the rank table keys the first group by
`"in progress"` (with a space), not `"in-progress"`; a project whose status
is `In-Progress` gets the unrecognized rank 5, while `In Progress` gets 1. -/
theorem claim8_rank_cex :
    ({ name := "x", dir_path := "x", status := "In-Progress",
        priority := "High" } : Project).sort_key = (5, 1, "x") ∧
    ({ name := "x", dir_path := "x", status := "In Progress",
        priority := "High" } : Project).sort_key = (1, 1, "x") ∧
    (5 : Nat) ≠ 1 := by decide

/-- C8 (amended): rank is the tuple (statusRank, priorityRank, lowercased
name) where statusRank is a case-insensitive lookup mapping `active`,
`in progress` (with a space), `running` to 1, `ready`/`stuck`/`blocked` to 2,
`paused` to 3, `backlog` to 4 and anything unrecognized to 5, and
priorityRank maps `high` to 1, `medium`/`med` to 2, `low` to 3 and
unrecognized to 4. -/
theorem claim8_rank_amended (p : Project) :
    p.sort_key
      = ((if lowerS p.status ∈ (["active", "in progress", "running"] : List String) then 1
          else if lowerS p.status ∈ (["ready", "stuck", "blocked"] : List String) then 2
          else if lowerS p.status = "paused" then 3
          else if lowerS p.status = "backlog" then 4
          else 5),
         (if lowerS p.priority = "high" then 1
          else if lowerS p.priority ∈ (["medium", "med"] : List String) then 2
          else if lowerS p.priority = "low" then 3
          else 4),
         lowerS p.name) := by
  unfold Project.sort_key
  rw [status_rank_table (lowerS p.status), priority_rank_table (lowerS p.priority)]

/-! ## Claims C9 and C10 -/

theorem journal_lines_sound (date file : String) (S : List String) :
    ∀ (L : List String) (t p : String) (content : List String) (acc : List JEntry),
      (∀ l ∈ L, l ∈ S) →
      (t ≠ "" → ∃ l ∈ S, startsW l "## " = true ∧ containsC l '—' = true ∧
        t = headerTime l ∧ p = headerProject l) →
      (∀ e ∈ acc, e.date = date ∧ e.file = file ∧ e.time ≠ "" ∧ e.project ≠ "" ∧
        ∃ l ∈ S, startsW l "## " = true ∧ containsC l '—' = true ∧
          e.time = headerTime l ∧ e.project = headerProject l) →
      ∀ e ∈ journal_lines date file L t p content acc,
        e.date = date ∧ e.file = file ∧ e.time ≠ "" ∧ e.project ≠ "" ∧
        ∃ l ∈ S, startsW l "## " = true ∧ containsC l '—' = true ∧
          e.time = headerTime l ∧ e.project = headerProject l := by
  intro L
  induction L with
  | nil =>
    intro t p content acc _ hstate hacc e he
    rw [journal_lines] at he
    by_cases htp : t ≠ "" ∧ p ≠ ""
    · rw [if_pos htp] at he
      rcases List.mem_append.mp he with h | h
      · exact hacc e h
      · rcases List.mem_singleton.mp h with rfl
        obtain ⟨l, hl, hl1, hl2, hl3, hl4⟩ := hstate htp.1
        exact ⟨rfl, rfl, htp.1, htp.2, l, hl, hl1, hl2, hl3, hl4⟩
    · rw [if_neg htp] at he
      exact hacc e he
  | cons line rest ih =>
    intro t p content acc hsub hstate hacc e he
    rw [journal_lines] at he
    have hlineS : line ∈ S := hsub line (List.mem_cons_self line rest)
    have hsub' : ∀ l ∈ rest, l ∈ S :=
      fun l hl => hsub l (List.mem_cons_of_mem line hl)
    by_cases hdr : (startsW line "## " && containsC line '—') = true
    · rw [if_pos hdr] at he
      have hdr' := Bool.and_eq_true_iff.mp hdr
      refine ih (headerTime line) (headerProject line) [] _ hsub' ?_ ?_ e he
      · intro _
        exact ⟨line, hlineS, hdr'.1, hdr'.2, rfl, rfl⟩
      · by_cases htp : t ≠ "" ∧ p ≠ ""
        · rw [if_pos htp]
          intro e' he'
          rcases List.mem_append.mp he' with h | h
          · exact hacc e' h
          · rcases List.mem_singleton.mp h with rfl
            obtain ⟨l, hl, hl1, hl2, hl3, hl4⟩ := hstate htp.1
            exact ⟨rfl, rfl, htp.1, htp.2, l, hl, hl1, hl2, hl3, hl4⟩
        · rw [if_neg htp]
          exact hacc
    · rw [if_neg hdr] at he
      by_cases ht : t ≠ ""
      · rw [if_pos ht] at he
        exact ih t p (content ++ [line]) acc hsub' hstate hacc e he
      · rw [if_neg ht] at he
        exact ih t p content acc hsub' hstate hacc e he

theorem recentGo_mem (limit : Nat) :
    ∀ (fs : List (String × String)) (acc : List JEntry) (e : JEntry),
      e ∈ recentGo limit fs acc → e ∈ acc ∨ ∃ f ∈ fs, e ∈ parse_day_file f := by
  intro fs
  induction fs with
  | nil => intro acc e he; exact Or.inl he
  | cons f rest ih =>
    intro acc e he
    rw [recentGo] at he
    by_cases hlim : limit ≤ (acc ++ parse_day_file f).length
    · rw [if_pos hlim] at he
      rcases List.mem_append.mp he with h | h
      · exact Or.inl h
      · exact Or.inr ⟨f, List.mem_cons_self f rest, h⟩
    · rw [if_neg hlim] at he
      rcases ih _ e he with h | h
      · rcases List.mem_append.mp h with h1 | h1
        · exact Or.inl h1
        · exact Or.inr ⟨f, List.mem_cons_self f rest, h1⟩
      · obtain ⟨g, hg, hge⟩ := h
        exact Or.inr ⟨g, List.mem_cons_of_mem f hg, hge⟩

/-- C9: every entry surfaced by `recent_entries` has a non-empty time and a
non-empty project, parsed from a header line of its day file that starts with
`## ` and contains the em dash; an entry whose header lacks the separator or
whose parsed time or project is empty is never surfaced. -/
theorem claim9_journal_headers (files : List (String × String)) (limit : Nat) :
    ∀ e ∈ recent_entries files limit,
      e.time ≠ "" ∧ e.project ≠ "" ∧
      ∃ f ∈ files, e.date = f.1 ∧ e.file = f.1 ++ ".md" ∧
        ∃ l ∈ splitLines f.2, startsW l "## " = true ∧ containsC l '—' = true ∧
          e.time = headerTime l ∧ e.project = headerProject l := by
  intro e he
  unfold recent_entries at he
  have he' := List.mem_of_mem_take he
  rcases recentGo_mem limit _ [] e he' with h | h
  · exact absurd h (List.not_mem_nil e)
  · obtain ⟨f, hf, hfe⟩ := h
    have hffiles : f ∈ files :=
      (List.perm_insertionSort fileGe files).mem_iff.mp (List.mem_of_mem_take hf)
    have hsound := journal_lines_sound f.1 (f.1 ++ ".md") (splitLines f.2)
      (splitLines f.2) "" "" [] [] (fun l hl => hl)
      (fun h0 => absurd rfl h0) (fun e' he' => absurd he' (List.not_mem_nil e'))
      e hfe
    exact ⟨hsound.2.2.1, hsound.2.2.2.1,
      f, hffiles, hsound.1, hsound.2.1, hsound.2.2.2.2⟩

/-- Witness for C9: one well-formed journal file yields exactly its one
well-shaped entry, and the theorem's conclusion holds of it. -/
theorem claim9_journal_headers_witness :
    (⟨"2026-02-26", "10:00", "site", "fixed bug", "2026-02-26.md"⟩ : JEntry).time ≠ "" ∧
    (⟨"2026-02-26", "10:00", "site", "fixed bug", "2026-02-26.md"⟩ : JEntry).project ≠ "" ∧
    ∃ f ∈ [("2026-02-26", "# J\n\n## 10:00 — site\nfixed bug\n")],
      (⟨"2026-02-26", "10:00", "site", "fixed bug", "2026-02-26.md"⟩ : JEntry).date = f.1 ∧
      (⟨"2026-02-26", "10:00", "site", "fixed bug", "2026-02-26.md"⟩ : JEntry).file
          = f.1 ++ ".md" ∧
      ∃ l ∈ splitLines f.2, startsW l "## " = true ∧ containsC l '—' = true ∧
        (⟨"2026-02-26", "10:00", "site", "fixed bug", "2026-02-26.md"⟩ : JEntry).time
            = headerTime l ∧
        (⟨"2026-02-26", "10:00", "site", "fixed bug", "2026-02-26.md"⟩ : JEntry).project
            = headerProject l :=
  claim9_journal_headers [("2026-02-26", "# J\n\n## 10:00 — site\nfixed bug\n")] 20
    ⟨"2026-02-26", "10:00", "site", "fixed bug", "2026-02-26.md"⟩ (by decide)

/-- C10: `resolve_project` does not apply the `.`/`_` name-exclusion filter of
`scan_projects`: a root whose only child is the directory `_hidden` resolves
both by exact match and by substring match, while `scan_projects` omits it. -/
theorem claim10_resolve_ignores_exclusions :
    (resolve_project (fun _ => none) (some [⟨"_hidden", true, none⟩]) "_hidden").map
        Project.name = some "_hidden" ∧
    (resolve_project (fun _ => none) (some [⟨"_hidden", true, none⟩]) "hidden").map
        Project.name = some "_hidden" ∧
    scan_projects (fun _ => none) (some [⟨"_hidden", true, none⟩]) = [] := by decide
